import Mathlib

/-!
Shallow embedding of `midi_markov_pipeline.py` (melody-surprise): note-sequence
extraction, first-order Markov model building, and surprise scoring.

Python dicts are modelled as insertion-ordered association lists over `Nat`
keys (`dget` is `dict.get`-style first-match lookup); integer counts become
`Nat`, float probabilities become `ℚ` (exact `count / total` division), and
the surprise values `-log2(p)` live in `ℝ` via `Real.logb 2`.
-/

namespace MelodySurprise

/-- A parsed MIDI message as the pipeline consumes it: a delta `time`, the
meta flag, the message `type` string, and the `note` / `velocity` fields. -/
structure Msg where
  time : Nat
  is_meta : Bool
  type : String
  note : Nat
  velocity : Nat
  deriving DecidableEq

/-- The test `not msg.is_meta and msg.type == "note_on" and msg.velocity > 0`
from `extract_note_sequence` (line 109). -/
def noteOnQ (m : Msg) : Bool :=
  !m.is_meta && (m.type == "note_on") && decide (0 < m.velocity)

/-- One step of the inner loop of `extract_note_sequence` (lines 106-110):
state is `(abs_time, events)`; every message adds its delta to `abs_time`,
and qualifying note-on events are appended to `events`. -/
def trackStep (st : Nat × List (Nat × Nat)) (m : Msg) : Nat × List (Nat × Nat) :=
  let t := st.1 + m.time
  (t, if noteOnQ m then st.2 ++ [(t, m.note)] else st.2)

/-- The events recorded while scanning one track (lines 106-110), with the
absolute-time accumulator starting at 0. -/
def trackEvents (track : List Msg) : List (Nat × Nat) :=
  (track.foldl trackStep (0, [])).2

/-- The shared `events` list after all tracks are processed (lines 104-110):
per-track event lists concatenated in track order. -/
def allEvents (tracks : List (List Msg)) : List (Nat × Nat) :=
  tracks.foldl (fun acc track => acc ++ trackEvents track) []

/-- `extract_note_sequence` (lines 104-114): all note-on (velocity > 0)
events from all tracks, stably sorted by absolute time (`events.sort` with
`key=lambda x: x[0]` is a stable sort), projected to the note numbers. -/
def extract_note_sequence (tracks : List (List Msg)) : List Nat :=
  (((allEvents tracks).mergeSort (fun a b => decide (a.1 ≤ b.1))).map Prod.snd)

/-- A Python `dict` with `Nat` keys: an insertion-ordered association list.
`dget` is key lookup (`d.get(k)`), returning the first matching value. -/
def dget {α : Type} : List (Nat × α) → Nat → Option α
  | [], _ => none
  | (k, v) :: rest, key => if k = key then some v else dget rest key

/-- Two-level lookup `d[a][b]` on a nested dict, as an `Option`. -/
def dget2 {α : Type} (d : List (Nat × List (Nat × α))) (a b : Nat) : Option α :=
  (dget d a).bind (fun row => dget row b)

/-- The nested count table `counts : defaultdict(lambda: defaultdict(int))`. -/
abbrev Counts := List (Nat × List (Nat × Nat))

/-- The normalized transition table `transition_probs`. -/
abbrev Probs := List (Nat × List (Nat × ℚ))

/-- `row[y] += 1` on an inner `defaultdict(int)`: update in place if `y` is
present, else append `(y, 1)` at the end (dict insertion order). -/
def dsetIncr (row : List (Nat × Nat)) (y : Nat) : List (Nat × Nat) :=
  match row with
  | [] => [(y, 1)]
  | (k, v) :: rest => if k = y then (k, v + 1) :: rest else (k, v) :: dsetIncr rest y

/-- `counts[x][y] += 1` (line 128): the outer `defaultdict` vivifies an empty
row for a fresh source `x` (appended at the end), then increments `y`. -/
def cincr (counts : Counts) (x y : Nat) : Counts :=
  match counts with
  | [] => [(x, [(y, 1)])]
  | (k, row) :: rest =>
      if k = x then (k, dsetIncr row y) :: rest else (k, row) :: cincr rest x y

/-- The adjacent pairs `zip(seq[:-1], seq[1:])` of a sequence (line 127). -/
def pairsOf (seq : List Nat) : List (Nat × Nat) :=
  seq.dropLast.zip seq.tail

/-- The per-sequence body of the counting loop in `build_first_order_markov`
(lines 123-128): skip sequences shorter than 2, else count adjacent pairs. -/
def addSeq (counts : Counts) (seq : List Nat) : Counts :=
  if seq.length < 2 then counts
  else (pairsOf seq).foldl (fun acc pr => cincr acc pr.1 pr.2) counts

/-- The finished count table of `build_first_order_markov` (lines 121-128),
taking the already-extracted sequences as input. -/
def build_counts (seqs : List (List Nat)) : Counts :=
  seqs.foldl addSeq []

/-- The normalization loop of `build_first_order_markov` (lines 130-135):
each source's counts divided by the row total, rows with zero total skipped. -/
def normalize_counts (counts : Counts) : Probs :=
  counts.filterMap (fun xr =>
    let total := (xr.2.map Prod.snd).sum
    if total = 0 then none
    else some (xr.1, xr.2.map (fun yc => (yc.1, (yc.2 : ℚ) / (total : ℚ)))))

/-- `build_first_order_markov` (lines 117-137) over already-extracted
sequences: returns `(transition_probs, counts)`. -/
def build_first_order_markov (seqs : List (List Nat)) : Probs × Counts :=
  (normalize_counts (build_counts seqs), build_counts seqs)

/-- The probability looked up for one transition in
`compute_surprise_sequence` (lines 147-148):
`p_dict = transition_probs.get(prev_note, {})`,
`p = p_dict.get(next_note, 1e-6)`. -/
def transition_p (transition_probs : Probs) (prev_note next_note : Nat) : ℚ :=
  let p_dict := (dget transition_probs prev_note).getD []
  (dget p_dict next_note).getD (1e-6 : ℚ)

/-- `compute_surprise_sequence` (lines 140-151): for each adjacent pair of
the sequence, emit `-log2(p)` for the looked-up probability. -/
noncomputable def compute_surprise_sequence
    (sequence : List Nat) (transition_probs : Probs) : List ℝ :=
  (sequence.dropLast.zip sequence.tail).map
    (fun pr => -Real.logb 2 ((transition_p transition_probs pr.1 pr.2 : ℚ) : ℝ))

/-- Python's non-vivifying `dict.get(k, default)`: returns the value (or the
default) together with the dictionary, which it leaves untouched. -/
def pyGet {α : Type} (d : List (Nat × α)) (k : Nat) (dflt : α) : α × List (Nat × α) :=
  ((dget d k).getD dflt, d)

/-- One iteration of the scorer loop (lines 146-150), state-threaded: the
state is the surprise list so far and the model; both dictionary reads go
through the non-vivifying `pyGet`, and the model coming out of the first
read is the model the next iteration sees. -/
noncomputable def stStep (st : List ℝ × Probs) (pr : Nat × Nat) : List ℝ × Probs :=
  let g1 := pyGet st.2 pr.1 ([] : List (Nat × ℚ))
  let g2 := pyGet g1.1 pr.2 (1e-6 : ℚ)
  (st.1 ++ [-Real.logb 2 ((g2.1 : ℚ) : ℝ)], g1.2)

/-- State-threaded rendering of `compute_surprise_sequence` (lines 140-151):
returns the surprises together with the final model and final sequence. -/
noncomputable def compute_surprise_sequence_st
    (sequence : List Nat) (transition_probs : Probs) : List ℝ × Probs × List Nat :=
  let fin := (sequence.dropLast.zip sequence.tail).foldl stStep
    (([] : List ℝ), transition_probs)
  (fin.1, fin.2, sequence)

/-- A MIDI file of the batch run, reduced to what `main` (lines 209-246)
uses: its style label (first path segment) and its parsed tracks. -/
structure MFile where
  style : String
  tracks : List (List Msg)
  deriving DecidableEq

/-- The grouping `style_to_files` of `main` (lines 211-215): the files of one
style, in input order. -/
def style_to_files (files : List MFile) (style : String) : List MFile :=
  files.filter (fun f => f.style == style)

/-- The model `style_models[style]` built in `main` (lines 217-221). -/
def style_model (files : List MFile) (style : String) : Probs :=
  (build_first_order_markov
    ((style_to_files files style).map (fun f => extract_note_sequence f.tracks))).1

/-- Outcome of the per-file scoring loop of `main` (lines 226-246). -/
inductive ScoreOutcome where
  | skipNoModel : ScoreOutcome
  | skipTooFew : ScoreOutcome
  | scored : List ℝ → ScoreOutcome

/-- The body of the scoring loop of `main` (lines 226-246) for one file:
skip (with a report) when the style's model is empty, skip when the file has
fewer than 2 notes, else score the sequence against the style's model. -/
noncomputable def score_file (files : List MFile) (f : MFile) : ScoreOutcome :=
  let model := style_model files f.style
  if model = [] then ScoreOutcome.skipNoModel
  else
    let seq := extract_note_sequence f.tracks
    if seq.length < 2 then ScoreOutcome.skipTooFew
    else ScoreOutcome.scored (compute_surprise_sequence seq model)

/-! ### Dictionary lemmas -/

lemma dget_none_iff {α : Type} (d : List (Nat × α)) (k : Nat) :
    dget d k = none ↔ k ∉ d.map Prod.fst := by
  induction d with
  | nil => simp [dget]
  | cons hd tl ih =>
    obtain ⟨k', v⟩ := hd
    by_cases h : k' = k <;> simp [dget, h, ih, Ne.symm]

lemma dget_mem {α : Type} {d : List (Nat × α)} {k : Nat} {v : α}
    (h : dget d k = some v) : (k, v) ∈ d := by
  induction d with
  | nil => simp [dget] at h
  | cons hd tl ih =>
    obtain ⟨k', v'⟩ := hd
    by_cases hk : k' = k
    · subst hk
      simp [dget] at h
      simp [h]
    · simp [dget, hk] at h
      exact List.mem_cons_of_mem _ (ih h)

lemma dget_eq_some_split {row : List (Nat × Nat)} {b v : Nat}
    (h : dget row b = some v) : ∃ l1 l2, row = l1 ++ (b, v) :: l2 := by
  induction row with
  | nil => simp [dget] at h
  | cons hd tl ih =>
    obtain ⟨k, w⟩ := hd
    by_cases hk : k = b
    · subst hk
      simp [dget] at h
      exact ⟨[], tl, by simp [h]⟩
    · simp [dget, hk] at h
      obtain ⟨l1, l2, rfl⟩ := ih h
      exact ⟨(k, w) :: l1, l2, rfl⟩

lemma dget_dsetIncr (row : List (Nat × Nat)) (y b : Nat) :
    dget (dsetIncr row y) b =
      if b = y then some (((dget row y).getD 0) + 1) else dget row b := by
  induction row with
  | nil =>
    by_cases h : b = y
    · subst h
      simp [dsetIncr, dget]
    · simp [dsetIncr, dget, h, Ne.symm h]
  | cons hd tl ih =>
    obtain ⟨k, v⟩ := hd
    by_cases hk : k = y
    · subst hk
      by_cases hb : b = k
      · subst hb
        simp [dsetIncr, dget]
      · have hkb : ¬ k = b := fun h => hb h.symm
        simp [dsetIncr, dget, hb, hkb]
    · by_cases hkb : k = b
      · subst hkb
        have hby : ¬ k = y := hk
        simp [dsetIncr, dget, hk, Ne.symm hk]
      · simp [dsetIncr, dget, hk, hkb, ih]

lemma dsetIncr_snd_sum (row : List (Nat × Nat)) (y : Nat) :
    ((dsetIncr row y).map Prod.snd).sum = (row.map Prod.snd).sum + 1 := by
  induction row with
  | nil => simp [dsetIncr]
  | cons hd tl ih =>
    obtain ⟨k, v⟩ := hd
    by_cases hk : k = y <;> simp [dsetIncr, hk, ih] <;> omega

lemma dsetIncr_keys (row : List (Nat × Nat)) (y : Nat) :
    (dsetIncr row y).map Prod.fst =
      if (dget row y).isSome then row.map Prod.fst else row.map Prod.fst ++ [y] := by
  induction row with
  | nil => simp [dsetIncr, dget]
  | cons hd tl ih =>
    obtain ⟨k, v⟩ := hd
    by_cases hk : k = y
    · simp [dsetIncr, hk, dget]
    · simp only [dsetIncr, if_neg hk, List.map_cons, dget, if_neg hk, ih]
      by_cases h : (dget tl y).isSome <;> simp [h]

lemma dsetIncr_ne_nil (row : List (Nat × Nat)) (y : Nat) : dsetIncr row y ≠ [] := by
  cases row with
  | nil => simp [dsetIncr]
  | cons hd tl =>
    obtain ⟨k, v⟩ := hd
    by_cases hk : k = y <;> simp [dsetIncr, hk]

lemma dsetIncr_vals {row : List (Nat × Nat)} (y : Nat)
    (h : ∀ yc ∈ row, 1 ≤ yc.2) : ∀ yc ∈ dsetIncr row y, 1 ≤ yc.2 := by
  induction row with
  | nil => simp [dsetIncr]
  | cons hd tl ih =>
    obtain ⟨k, v⟩ := hd
    by_cases hk : k = y
    · subst hk
      intro yc hyc
      simp [dsetIncr] at hyc
      rcases hyc with h1 | h2
      · simp [h1]
      · exact h _ (List.mem_cons_of_mem _ h2)
    · intro yc hyc
      simp [dsetIncr, hk] at hyc
      rcases hyc with h1 | h2
      · subst h1
        exact h _ (by simp)
      · exact ih (fun z hz => h _ (List.mem_cons_of_mem _ hz)) _ h2

lemma dget_cincr (c : Counts) (x y a : Nat) :
    dget (cincr c x y) a =
      if a = x then some (dsetIncr ((dget c x).getD []) y) else dget c a := by
  induction c with
  | nil =>
    by_cases h : a = x
    · subst h
      simp [cincr, dget, dsetIncr]
    · simp [cincr, dget, h, Ne.symm h]
  | cons hd tl ih =>
    obtain ⟨k, row⟩ := hd
    by_cases hk : k = x
    · subst hk
      by_cases ha : a = k
      · subst ha
        simp [cincr, dget]
      · have hka : ¬ k = a := fun h => ha h.symm
        simp [cincr, dget, ha, hka]
    · by_cases hka : k = a
      · subst hka
        simp [cincr, dget, hk, Ne.symm hk]
      · simp [cincr, dget, hk, hka, ih]

lemma cincr_keys (c : Counts) (x y : Nat) :
    (cincr c x y).map Prod.fst =
      if (dget c x).isSome then c.map Prod.fst else c.map Prod.fst ++ [x] := by
  induction c with
  | nil => simp [cincr, dget]
  | cons hd tl ih =>
    obtain ⟨k, row⟩ := hd
    by_cases hk : k = x
    · simp [cincr, hk, dget]
    · simp only [cincr, if_neg hk, List.map_cons, dget, if_neg hk, ih]
      by_cases h : (dget tl x).isSome <;> simp [h]

lemma dget2_cincr (c : Counts) (x y a b : Nat) :
    dget2 (cincr c x y) a b =
      if a = x ∧ b = y then some (((dget2 c x y).getD 0) + 1) else dget2 c a b := by
  by_cases ha : a = x
  · subst ha
    have h1 : dget2 (cincr c a y) a b = dget (dsetIncr ((dget c a).getD []) y) b := by
      rw [dget2, dget_cincr, if_pos rfl]
      rfl
    rw [h1, dget_dsetIncr]
    by_cases hb : b = y
    · subst hb
      rw [if_pos rfl, if_pos ⟨rfl, rfl⟩]
      cases h : dget c a with
      | none => simp [dget2, h, dget]
      | some row => simp [dget2, h]
    · rw [if_neg hb, if_neg (fun h : a = a ∧ b = y => hb h.2)]
      cases h : dget c a with
      | none => simp [dget2, h, dget]
      | some row => simp [dget2, h]
  · have hc : ¬ (a = x ∧ b = y) := fun h => ha h.1
    rw [if_neg hc, dget2, dget_cincr, if_neg ha, dget2]

lemma dget2_cincr_getD (c : Counts) (x y a b : Nat) :
    (dget2 (cincr c x y) a b).getD 0 =
      (dget2 c a b).getD 0 + (if a = x ∧ b = y then 1 else 0) := by
  rw [dget2_cincr]
  by_cases h : a = x ∧ b = y
  · simp [h]
  · simp [h]

lemma dget2_cincr_none (c : Counts) (x y a b : Nat) :
    dget2 (cincr c x y) a b = none ↔ dget2 c a b = none ∧ ¬(a = x ∧ b = y) := by
  rw [dget2_cincr]
  by_cases h : a = x ∧ b = y <;> simp [h]

/-! ### Characterizing the built count table -/

lemma pairsOf_eq_nil_of_short {seq : List Nat} (h : seq.length < 2) :
    pairsOf seq = [] := by
  match seq, h with
  | [], _ => rfl
  | [a], _ => rfl

lemma addSeq_eq_foldl (c : Counts) (seq : List Nat) :
    addSeq c seq = (pairsOf seq).foldl (fun acc pr => cincr acc pr.1 pr.2) c := by
  rw [addSeq]
  by_cases h : seq.length < 2
  · rw [if_pos h, pairsOf_eq_nil_of_short h]
    rfl
  · rw [if_neg h]

lemma dget2_foldl_getD (l : List (Nat × Nat)) :
    ∀ (c : Counts) (a b : Nat),
      (dget2 (l.foldl (fun acc pr => cincr acc pr.1 pr.2) c) a b).getD 0 =
        (dget2 c a b).getD 0 + l.count (a, b) := by
  induction l with
  | nil => intro c a b; simp
  | cons pr tl ih =>
    obtain ⟨p, q⟩ := pr
    intro c a b
    rw [List.foldl_cons, ih, dget2_cincr_getD, List.count_cons]
    by_cases h : a = p ∧ b = q
    · obtain ⟨h1, h2⟩ := h
      subst h1
      subst h2
      simp
      omega
    · have h2 : ¬ ((p, q) == (a, b)) = true := by
        simp only [beq_iff_eq, Prod.mk.injEq, not_and]
        intro hpa hqb
        exact absurd ⟨hpa.symm, hqb.symm⟩ h
      simp [h, h2]

lemma dget2_foldl_none (l : List (Nat × Nat)) :
    ∀ (c : Counts) (a b : Nat),
      dget2 (l.foldl (fun acc pr => cincr acc pr.1 pr.2) c) a b = none ↔
        dget2 c a b = none ∧ l.count (a, b) = 0 := by
  induction l with
  | nil => intro c a b; simp
  | cons pr tl ih =>
    obtain ⟨p, q⟩ := pr
    intro c a b
    rw [List.foldl_cons, ih, dget2_cincr_none, List.count_cons]
    by_cases h : a = p ∧ b = q
    · obtain ⟨h1, h2⟩ := h
      subst h1
      subst h2
      simp
    · have h2 : ¬ ((p, q) == (a, b)) = true := by
        simp only [beq_iff_eq, Prod.mk.injEq, not_and]
        intro hpa hqb
        exact absurd ⟨hpa.symm, hqb.symm⟩ h
      simp [h, h2]

/-- The total number of occurrences of the adjacent pair `(a, b)` within the
individual sequences of the corpus. -/
def pairTotal (seqs : List (List Nat)) (a b : Nat) : Nat :=
  (seqs.map (fun s => (pairsOf s).count (a, b))).sum

lemma dget2_build_getD (seqs : List (List Nat)) (a b : Nat) :
    (dget2 (build_counts seqs) a b).getD 0 = pairTotal seqs a b := by
  rw [build_counts, pairTotal]
  have main : ∀ (ss : List (List Nat)) (c : Counts),
      (dget2 (ss.foldl addSeq c) a b).getD 0 =
        (dget2 c a b).getD 0 + (ss.map (fun s => (pairsOf s).count (a, b))).sum := by
    intro ss
    induction ss with
    | nil => intro c; simp
    | cons s tl ih =>
      intro c
      rw [List.foldl_cons, ih, addSeq_eq_foldl, dget2_foldl_getD, List.map_cons,
        List.sum_cons]
      omega
  rw [main seqs []]
  simp [dget2, dget]

lemma dget2_build_none (seqs : List (List Nat)) (a b : Nat) :
    dget2 (build_counts seqs) a b = none ↔ pairTotal seqs a b = 0 := by
  rw [build_counts, pairTotal]
  have main : ∀ (ss : List (List Nat)) (c : Counts),
      dget2 (ss.foldl addSeq c) a b = none ↔
        dget2 c a b = none ∧ (ss.map (fun s => (pairsOf s).count (a, b))).sum = 0 := by
    intro ss
    induction ss with
    | nil => intro c; simp
    | cons s tl ih =>
      intro c
      rw [List.foldl_cons, ih, addSeq_eq_foldl, dget2_foldl_none, List.map_cons,
        List.sum_cons]
      constructor
      · rintro ⟨⟨h1, h2⟩, h3⟩
        exact ⟨h1, by omega⟩
      · rintro ⟨h1, h2⟩
        exact ⟨⟨h1, by omega⟩, by omega⟩
  rw [main seqs []]
  simp [dget2, dget]

/-- Full characterization of a two-level lookup in the built count table:
the number of in-sequence adjacent occurrences of `(a, b)`, present exactly
when that number is positive. -/
lemma dget2_build (seqs : List (List Nat)) (a b : Nat) :
    dget2 (build_counts seqs) a b =
      if 0 < pairTotal seqs a b then some (pairTotal seqs a b) else none := by
  cases h : dget2 (build_counts seqs) a b with
  | none =>
    have h0 : pairTotal seqs a b = 0 := (dget2_build_none seqs a b).mp h
    simp [h0]
  | some n =>
    have hne : ¬ pairTotal seqs a b = 0 := by
      intro h0
      rw [(dget2_build_none seqs a b).mpr h0] at h
      exact Option.noConfusion h
    have hn : n = pairTotal seqs a b := by
      have := dget2_build_getD seqs a b
      rw [h] at this
      simpa using this
    rw [if_pos (Nat.pos_of_ne_zero hne), hn]

/-! ### Row totals -/

/-- The total of one source's row in a count table (0 for an absent source). -/
def rowTotal (c : Counts) (a : Nat) : Nat :=
  (((dget c a).getD []).map Prod.snd).sum

/-- The number of in-sequence adjacent pairs with source `a` in the corpus. -/
def srcTotal (seqs : List (List Nat)) (a : Nat) : Nat :=
  (seqs.map (fun s => (pairsOf s).countP (fun pr => pr.1 == a))).sum

lemma rowTotal_cincr (c : Counts) (x y a : Nat) :
    rowTotal (cincr c x y) a = rowTotal c a + if a = x then 1 else 0 := by
  rw [rowTotal, rowTotal, dget_cincr]
  by_cases h : a = x
  · subst h
    simp [dsetIncr_snd_sum]
  · simp [h]

lemma rowTotal_foldl (l : List (Nat × Nat)) :
    ∀ (c : Counts) (a : Nat),
      rowTotal (l.foldl (fun acc pr => cincr acc pr.1 pr.2) c) a =
        rowTotal c a + l.countP (fun pr => pr.1 == a) := by
  induction l with
  | nil => intro c a; simp
  | cons pr tl ih =>
    intro c a
    rw [List.foldl_cons, ih, rowTotal_cincr, List.countP_cons]
    by_cases h : a = pr.1
    · simp [h]
      omega
    · have : ¬ (pr.1 == a) = true := by
        simp only [beq_iff_eq]
        exact fun he => h he.symm
      simp [h, this]

lemma rowTotal_build (seqs : List (List Nat)) (a : Nat) :
    rowTotal (build_counts seqs) a = srcTotal seqs a := by
  rw [build_counts, srcTotal]
  have main : ∀ (ss : List (List Nat)) (c : Counts),
      rowTotal (ss.foldl addSeq c) a =
        rowTotal c a + (ss.map (fun s => (pairsOf s).countP (fun pr => pr.1 == a))).sum := by
    intro ss
    induction ss with
    | nil => intro c; simp
    | cons s tl ih =>
      intro c
      rw [List.foldl_cons, ih, addSeq_eq_foldl, rowTotal_foldl, List.map_cons,
        List.sum_cons]
      omega
  rw [main seqs []]
  simp [rowTotal, dget]

/-! ### Well-formedness of built count tables -/

/-- The invariants a Python dict-of-dicts count table maintains: distinct
keys at both levels, no empty inner row, and every stored count at least 1. -/
def CountsWF (c : Counts) : Prop :=
  (c.map Prod.fst).Nodup ∧
    ∀ xr ∈ c, xr.2 ≠ [] ∧ (xr.2.map Prod.fst).Nodup ∧ ∀ yc ∈ xr.2, 1 ≤ yc.2

lemma cincr_mem {c : Counts} {x y : Nat} :
    ∀ xr ∈ cincr c x y,
      xr ∈ c ∨ (∃ row, (xr.1, row) ∈ c ∧ xr.2 = dsetIncr row y) ∨ xr = (x, [(y, 1)]) := by
  induction c with
  | nil =>
    intro xr hxr
    simp [cincr] at hxr
    simp [hxr]
  | cons hd tl ih =>
    obtain ⟨k, row⟩ := hd
    intro xr hxr
    by_cases hk : k = x
    · subst hk
      simp [cincr] at hxr
      rcases hxr with h1 | h2
      · exact Or.inr (Or.inl ⟨row, by simp [h1]⟩)
      · exact Or.inl (List.mem_cons_of_mem _ h2)
    · simp [cincr, hk] at hxr
      rcases hxr with h1 | h2
      · exact Or.inl (by simp [h1])
      · rcases ih xr h2 with h | ⟨r, hr, he⟩ | h
        · exact Or.inl (List.mem_cons_of_mem _ h)
        · exact Or.inr (Or.inl ⟨r, List.mem_cons_of_mem _ hr, he⟩)
        · exact Or.inr (Or.inr h)

lemma dsetIncr_nodup_keys {row : List (Nat × Nat)} (y : Nat)
    (h : (row.map Prod.fst).Nodup) : ((dsetIncr row y).map Prod.fst).Nodup := by
  rw [dsetIncr_keys]
  by_cases hs : (dget row y).isSome
  · simpa [hs]
  · have hy : y ∉ row.map Prod.fst := by
      rw [← dget_none_iff]
      cases hd : dget row y with
      | none => rfl
      | some v => rw [hd] at hs; simp at hs
    simp only [hs, if_neg]
    simp [List.nodup_append, h, hy]

lemma cincr_wf {c : Counts} (x y : Nat) (h : CountsWF c) : CountsWF (cincr c x y) := by
  obtain ⟨hkeys, hrows⟩ := h
  constructor
  · rw [cincr_keys]
    by_cases hs : (dget c x).isSome
    · simpa [hs]
    · have hx : x ∉ c.map Prod.fst := by
        rw [← dget_none_iff]
        cases hd : dget c x with
        | none => rfl
        | some v => rw [hd] at hs; simp at hs
      simp only [hs, if_neg]
      simp [List.nodup_append, hkeys, hx]
  · intro xr hxr
    rcases cincr_mem xr hxr with h1 | ⟨row, hrow, he⟩ | h1
    · exact hrows xr h1
    · obtain ⟨hne, hnd, hval⟩ := hrows (xr.1, row) hrow
      refine ⟨by rw [he]; exact dsetIncr_ne_nil row y, ?_, ?_⟩
      · rw [he]
        exact dsetIncr_nodup_keys y hnd
      · rw [he]
        exact dsetIncr_vals y hval
    · subst h1
      refine ⟨by simp, by simp, ?_⟩
      intro yc hyc
      simp at hyc
      simp [hyc]

lemma build_counts_wf (seqs : List (List Nat)) : CountsWF (build_counts seqs) := by
  rw [build_counts]
  have foldp : ∀ (l : List (Nat × Nat)) (c : Counts), CountsWF c →
      CountsWF (l.foldl (fun acc pr => cincr acc pr.1 pr.2) c) := by
    intro l
    induction l with
    | nil => intro c hc; exact hc
    | cons pr tl ih =>
      intro c hc
      exact ih _ (cincr_wf pr.1 pr.2 hc)
  have main : ∀ (ss : List (List Nat)) (c : Counts), CountsWF c →
      CountsWF (ss.foldl addSeq c) := by
    intro ss
    induction ss with
    | nil => intro c hc; exact hc
    | cons s tl ih =>
      intro c hc
      rw [List.foldl_cons, addSeq_eq_foldl]
      exact ih _ (foldp _ _ hc)
  exact main seqs [] ⟨by simp, by simp⟩

/-! ### Normalization lemmas -/

lemma row_sum_pos {row : List (Nat × Nat)} (hne : row ≠ [])
    (hval : ∀ yc ∈ row, 1 ≤ yc.2) : 0 < (row.map Prod.snd).sum := by
  cases row with
  | nil => exact absurd rfl hne
  | cons hd tl =>
    have h1 : 1 ≤ hd.2 := hval hd (by simp)
    simp only [List.map_cons, List.sum_cons]
    omega

lemma normalize_counts_cons (hd : Nat × List (Nat × Nat)) (tl : Counts) :
    normalize_counts (hd :: tl) =
      if (hd.2.map Prod.snd).sum = 0 then normalize_counts tl
      else (hd.1, hd.2.map
        (fun yc => (yc.1, (yc.2 : ℚ) / (((hd.2.map Prod.snd).sum : Nat) : ℚ)))) ::
          normalize_counts tl := by
  by_cases hz : (hd.2.map Prod.snd).sum = 0
  · rw [if_pos hz, normalize_counts, List.filterMap_cons]
    simp [hz, normalize_counts]
  · rw [if_neg hz, normalize_counts, List.filterMap_cons]
    simp [hz, normalize_counts]

lemma normalize_eq_map {c : Counts} (h : ∀ xr ∈ c, (xr.2.map Prod.snd).sum ≠ 0) :
    normalize_counts c =
      c.map (fun xr => (xr.1, xr.2.map
        (fun yc => (yc.1, (yc.2 : ℚ) / (((xr.2.map Prod.snd).sum : Nat) : ℚ))))) := by
  induction c with
  | nil => rfl
  | cons hd tl ih =>
    rw [normalize_counts_cons, if_neg (h hd (by simp)), List.map_cons,
      ih (fun xr hxr => h xr (List.mem_cons_of_mem _ hxr))]

lemma dget_map_assoc {α β : Type} (c : List (Nat × α)) (g : Nat → α → β) (x : Nat) :
    dget (c.map (fun xr => (xr.1, g xr.1 xr.2))) x = (dget c x).map (g x) := by
  induction c with
  | nil => simp [dget]
  | cons hd tl ih =>
    obtain ⟨k, v⟩ := hd
    by_cases hk : k = x
    · subst hk
      simp [dget]
    · simp [dget, hk, ih]

lemma normalize_mem_keys {c : Counts} {k : Nat}
    (h : k ∈ (normalize_counts c).map Prod.fst) : k ∈ c.map Prod.fst := by
  induction c with
  | nil => simp [normalize_counts] at h
  | cons hd tl ih =>
    rw [normalize_counts_cons] at h
    by_cases hz : (hd.2.map Prod.snd).sum = 0
    · rw [if_pos hz] at h
      exact List.mem_cons_of_mem _ (ih h)
    · rw [if_neg hz] at h
      simp only [List.map_cons, List.mem_cons] at h
      rcases h with h1 | h2
      · simp [h1]
      · exact List.mem_cons_of_mem _ (ih h2)

lemma dget_normalize_zero {c : Counts} (hnd : (c.map Prod.fst).Nodup) {x : Nat}
    {row : List (Nat × Nat)} (h : dget c x = some row)
    (hz : (row.map Prod.snd).sum = 0) : dget (normalize_counts c) x = none := by
  induction c with
  | nil => simp [dget] at h
  | cons hd tl ih =>
    obtain ⟨k, r⟩ := hd
    rw [normalize_counts_cons]
    have hnd' : (tl.map Prod.fst).Nodup := by
      simp at hnd
      exact hnd.2
    by_cases hk : k = x
    · subst hk
      have hr : r = row := by simpa [dget] using h
      subst hr
      rw [if_pos hz, dget_none_iff]
      intro hmem
      have hk2 : k ∈ tl.map Prod.fst := normalize_mem_keys hmem
      rw [List.map_cons, List.nodup_cons] at hnd
      exact hnd.1 hk2
    · have htl : dget tl x = some row := by
        simpa [dget, hk] using h
      by_cases hz2 : (r.map Prod.snd).sum = 0
      · rw [if_pos hz2]
        exact ih hnd' htl
      · rw [if_neg hz2]
        simpa [dget, hk] using ih hnd' htl

/-- For a built count table the zero-total skip in the normalization loop
never fires, and a source's probability row is its count row divided by the
row total. -/
lemma dget_probs_build (seqs : List (List Nat)) (x : Nat) :
    dget (build_first_order_markov seqs).1 x =
      (dget (build_counts seqs) x).map (fun row => row.map
        (fun yc => (yc.1, (yc.2 : ℚ) / (((row.map Prod.snd).sum : Nat) : ℚ)))) := by
  have hwf := build_counts_wf seqs
  have hnz : ∀ xr ∈ build_counts seqs, (xr.2.map Prod.snd).sum ≠ 0 := by
    intro xr hxr
    obtain ⟨hne, _, hval⟩ := hwf.2 xr hxr
    exact Nat.pos_iff_ne_zero.mp (row_sum_pos hne hval)
  show dget (normalize_counts (build_counts seqs)) x = _
  rw [normalize_eq_map hnz]
  exact dget_map_assoc (build_counts seqs)
    (fun _ row => row.map (fun yc => (yc.1, (yc.2 : ℚ) / (((row.map Prod.snd).sum : Nat) : ℚ)))) x

/-- Two-level lookup in the built probability model: the count divided by
the source's row total. -/
lemma dget2_probs_build (seqs : List (List Nat)) (a b : Nat) :
    dget2 (build_first_order_markov seqs).1 a b =
      (dget2 (build_counts seqs) a b).map
        (fun cv : Nat => (cv : ℚ) / ((rowTotal (build_counts seqs) a : Nat) : ℚ)) := by
  rw [dget2, dget_probs_build]
  cases h : dget (build_counts seqs) a with
  | none => simp [dget2, h]
  | some row =>
    simp only [Option.map_some', Option.some_bind]
    rw [dget_map_assoc row (fun _ v => (v : ℚ) / (((row.map Prod.snd).sum : Nat) : ℚ)) b]
    have hrt : rowTotal (build_counts seqs) a = (row.map Prod.snd).sum := by
      rw [rowTotal, h]
      rfl
    rw [hrt, dget2, h, Option.some_bind]

/-! ### Scorer helpers -/

lemma transition_p_eq (transition_probs : Probs) (a b : Nat) :
    transition_p transition_probs a b = (dget2 transition_probs a b).getD (1e-6 : ℚ) := by
  rw [transition_p, dget2]
  cases h : dget transition_probs a with
  | none => simp [h, dget]
  | some row => simp [h]

lemma compute_surprise_length (sequence : List Nat) (transition_probs : Probs) :
    (compute_surprise_sequence sequence transition_probs).length = sequence.length - 1 := by
  rw [compute_surprise_sequence, List.length_map, List.length_zip, List.length_dropLast,
    List.length_tail]
  omega

lemma compute_surprise_getElem (sequence : List Nat) (transition_probs : Probs)
    (i : Nat) (h1 : i + 1 < sequence.length)
    (h2 : i < (compute_surprise_sequence sequence transition_probs).length) :
    (compute_surprise_sequence sequence transition_probs)[i] =
      -Real.logb 2 ((transition_p transition_probs
        (sequence[i]) (sequence[i + 1]) : ℚ) : ℝ) := by
  have hz : i < (sequence.dropLast.zip sequence.tail).length := by
    rw [List.length_zip, List.length_dropLast, List.length_tail]
    omega
  simp only [compute_surprise_sequence] at h2 ⊢
  rw [List.getElem_map]
  congr 1
  rw [List.getElem_zip]
  have hd : i < sequence.dropLast.length := by
    rw [List.length_dropLast]
    omega
  have ht : i < sequence.tail.length := by
    rw [List.length_tail]
    omega
  rw [List.getElem_dropLast, List.getElem_tail]

/-- A member of a list of naturals is at most the list's sum. -/
lemma nat_mem_le_sum {l : List Nat} {v : Nat} (h : v ∈ l) : v ≤ l.sum := by
  induction l with
  | nil => simp at h
  | cons hd tl ih =>
    rcases List.mem_cons.mp h with h1 | h2
    · subst h1
      simp
    · have := ih h2
      simp
      omega

/-- `sum (map (·/t) l) = (sum l)/t` over `ℚ`, with the list given in `ℕ`. -/
lemma sum_map_div (l : List Nat) (t : ℚ) :
    (l.map (fun v : Nat => (v : ℚ) / t)).sum = ((l.sum : Nat) : ℚ) / t := by
  induction l with
  | nil => simp
  | cons hd tl ih =>
    rw [List.map_cons, List.sum_cons, ih, List.sum_cons]
    push_cast
    rw [add_div]

/-- A row of positive naturals whose total is one element of it is that
single element: used for the "sole recorded destination" characterization. -/
lemma row_singleton_of_sum_eq {row : List (Nat × Nat)} {b v : Nat}
    (hval : ∀ yc ∈ row, 1 ≤ yc.2) (h : dget row b = some v)
    (hsum : (row.map Prod.snd).sum = v) : row = [(b, v)] := by
  obtain ⟨l1, l2, rfl⟩ := dget_eq_some_split h
  have hs : (l1.map Prod.snd).sum + (v + (l2.map Prod.snd).sum) = v := by
    simpa using hsum
  have hl1 : l1 = [] := by
    cases l1 with
    | nil => rfl
    | cons hd tl =>
      have h1 : 1 ≤ hd.2 := hval hd (by simp)
      simp only [List.map_cons, List.sum_cons] at hs
      omega
  have hl2 : l2 = [] := by
    cases l2 with
    | nil => rfl
    | cons hd tl =>
      have h1 : 1 ≤ hd.2 := hval hd (by simp)
      simp only [List.map_cons, List.sum_cons] at hs
      omega
  rw [hl1, hl2]
  rfl

/-! ### Numeric bounds for the fallback surprise `-log2(1e-6)` -/

set_option exponentiation.threshold 4000000 in
set_option maxRecDepth 10000 in
lemma two_lt_pow_nat : (2 : Nat) ^ (3321928 : Nat) < (10 : Nat) ^ (1000000 : Nat) := by
  decide

set_option exponentiation.threshold 4000000 in
set_option maxRecDepth 10000 in
lemma pow_lt_two_nat : (10 : Nat) ^ (1000000 : Nat) < (2 : Nat) ^ (3321929 : Nat) := by
  decide

lemma two_lt_pow_aux : (2 : ℝ) ^ (3321928 : Nat) < (10 : ℝ) ^ (1000000 : Nat) := by
  have hr := (Nat.cast_lt (α := ℝ)).mpr two_lt_pow_nat
  push_cast at hr
  exact hr

lemma pow_lt_two_aux : (10 : ℝ) ^ (1000000 : Nat) < (2 : ℝ) ^ (3321929 : Nat) := by
  have hr := (Nat.cast_lt (α := ℝ)).mpr pow_lt_two_nat
  push_cast at hr
  exact hr

lemma log_two_pos : (0 : ℝ) < Real.log 2 := Real.log_pos (by norm_num)

/-- Rational bounds on `log2(10)`, tight to `10⁻⁶`. -/
lemma logb_ten_bounds :
    (3.321928 : ℝ) ≤ Real.logb 2 10 ∧ Real.logb 2 10 ≤ (3.321929 : ℝ) := by
  have h2 : (0 : ℝ) < Real.log 2 := log_two_pos
  constructor
  · have hpow := two_lt_pow_aux
    have hlog := Real.log_lt_log (by positivity) hpow
    rw [Real.log_pow, Real.log_pow] at hlog
    rw [Real.logb, le_div_iff h2]
    push_cast at hlog
    nlinarith
  · have hpow := pow_lt_two_aux
    have hlog := Real.log_lt_log (by positivity) hpow
    rw [Real.log_pow, Real.log_pow] at hlog
    rw [Real.logb, div_le_iff h2]
    push_cast at hlog
    nlinarith

/-- The fallback surprise `-log2(1e-6)` is `19.931568…` bits. -/
lemma fallback_surprise_bounds :
    |(-Real.logb 2 (((1e-6 : ℚ) : ℝ))) - 19.931568| < (1e-4 : ℝ) := by
  have hcast : ((1e-6 : ℚ) : ℝ) = ((10 : ℝ) ^ (6 : Nat))⁻¹ := by
    norm_num
  have hlog : -Real.logb 2 (((1e-6 : ℚ) : ℝ)) = (6 : Nat) * Real.logb 2 10 := by
    rw [hcast, Real.logb_inv, neg_neg, Real.logb_pow]
  obtain ⟨hb1, hb2⟩ := logb_ten_bounds
  rw [hlog, abs_lt]
  push_cast
  constructor <;> nlinarith

/-- A probability read from any built model is positive and at most 1. -/
lemma built_prob_mem (seqs : List (List Nat)) (a b : Nat) {q : ℚ}
    (h : dget2 (build_first_order_markov seqs).1 a b = some q) : 0 < q ∧ q ≤ 1 := by
  rw [dget2_probs_build] at h
  cases hc : dget2 (build_counts seqs) a b with
  | none => rw [hc] at h; exact Option.noConfusion h
  | some cv =>
    rw [hc, Option.map_some', Option.some.injEq] at h
    obtain ⟨row, hrow, hget⟩ : ∃ row, dget (build_counts seqs) a = some row ∧
        dget row b = some cv := by
      rw [dget2] at hc
      cases hg : dget (build_counts seqs) a with
      | none => rw [hg] at hc; exact Option.noConfusion hc
      | some row =>
        rw [hg, Option.some_bind] at hc
        exact ⟨row, rfl, hc⟩
    have hwf := build_counts_wf seqs
    obtain ⟨hne, _, hval⟩ := hwf.2 (a, row) (dget_mem hrow)
    have hv1 : 1 ≤ cv := hval (b, cv) (dget_mem hget)
    have hvle : cv ≤ (row.map Prod.snd).sum :=
      nat_mem_le_sum (List.mem_map_of_mem Prod.snd (dget_mem hget))
    have hrt : rowTotal (build_counts seqs) a = (row.map Prod.snd).sum := by
      rw [rowTotal, hrow]
      rfl
    have hpos : 0 < (row.map Prod.snd).sum := row_sum_pos hne hval
    subst h
    constructor
    · apply div_pos
      · exact_mod_cast hv1
      · rw [hrt]
        exact_mod_cast hpos
    · rw [div_le_one]
      · rw [hrt]
        exact_mod_cast hvle
      · rw [hrt]
        exact_mod_cast hpos

/-! ### Extractor helpers -/

lemma timeLE_trans (a b c : Nat × Nat) (h1 : (decide (a.1 ≤ b.1) : Bool))
    (h2 : (decide (b.1 ≤ c.1) : Bool)) : (decide (a.1 ≤ c.1) : Bool) := by
  simp only [decide_eq_true_eq] at h1 h2 ⊢
  omega

lemma timeLE_total (a b : Nat × Nat) :
    ((decide (a.1 ≤ b.1) : Bool) || (decide (b.1 ≤ a.1) : Bool)) = true := by
  simp only [Bool.or_eq_true, decide_eq_true_eq]
  omega

lemma scanl_cons_tail {α β : Type} (f : β → α → β) (b : β) (l : List α) :
    l.scanl f b = b :: (l.scanl f b).tail := by
  cases l with
  | nil => rfl
  | cons hd tl => rw [List.scanl_cons]; rfl

lemma trackEvents_foldl_spec :
    ∀ (track : List Msg) (t0 : Nat) (acc : List (Nat × Nat)),
      (track.foldl trackStep (t0, acc)).2 =
        acc ++ (((track.scanl (fun t m => t + m.time) t0).tail.zip track).filter
          (fun p => noteOnQ p.2)).map (fun p => (p.1, p.2.note)) := by
  intro track
  induction track with
  | nil => intro t0 acc; simp
  | cons m rest ih =>
    intro t0 acc
    rw [List.foldl_cons]
    have hstep : trackStep (t0, acc) m =
        (t0 + m.time, if noteOnQ m then acc ++ [(t0 + m.time, m.note)] else acc) := rfl
    rw [hstep]
    rw [ih (t0 + m.time) _]
    rw [List.scanl_cons, List.singleton_append, List.tail_cons]
    rw [scanl_cons_tail (fun t m => t + m.time) (t0 + m.time) rest]
    rw [List.zip_cons_cons, List.filter_cons]
    by_cases hq : noteOnQ m
    · simp only [hq, if_pos]
      rw [List.map_cons]
      simp [List.append_assoc]
    · simp only [hq]
      simp

lemma trackEvents_spec (track : List Msg) :
    trackEvents track =
      (((track.scanl (fun t m => t + m.time) 0).tail.zip track).filter
        (fun p => noteOnQ p.2)).map (fun p => (p.1, p.2.note)) := by
  rw [trackEvents, trackEvents_foldl_spec track 0 []]
  rfl

lemma zip_filter_noteOn_length :
    ∀ (B : List Msg) (A : List Nat), A.length = B.length →
      ((A.zip B).filter (fun p => noteOnQ p.2)).length = B.countP noteOnQ := by
  intro B
  induction B with
  | nil =>
    intro A h
    have : A = [] := List.length_eq_zero.mp h
    subst this
    simp
  | cons b tlB ih =>
    intro A h
    cases A with
    | nil => simp at h
    | cons a tlA =>
      simp only [List.length_cons] at h
      rw [List.zip_cons_cons, List.filter_cons, List.countP_cons]
      by_cases hq : noteOnQ b
      · simp only [hq]
        simp [ih tlA (by omega)]
      · simp only [hq]
        simp [ih tlA (by omega), hq]

lemma trackEvents_length (track : List Msg) :
    (trackEvents track).length = track.countP noteOnQ := by
  rw [trackEvents_spec, List.length_map]
  apply zip_filter_noteOn_length
  rw [List.length_tail, List.length_scanl]
  omega

lemma allEvents_length (tracks : List (List Msg)) :
    (allEvents tracks).length = (tracks.map (fun tr => tr.countP noteOnQ)).sum := by
  rw [allEvents]
  have main : ∀ (ts : List (List Msg)) (acc : List (Nat × Nat)),
      (ts.foldl (fun acc track => acc ++ trackEvents track) acc).length =
        acc.length + (ts.map (fun tr => tr.countP noteOnQ)).sum := by
    intro ts
    induction ts with
    | nil => intro acc; simp
    | cons t tl ih =>
      intro acc
      rw [List.foldl_cons, ih, List.length_append, trackEvents_length, List.map_cons,
        List.sum_cons]
      omega
  rw [main tracks []]
  simp

lemma mergeSort_sorted_fst (l : List (Nat × Nat)) :
    (l.mergeSort (fun a b => decide (a.1 ≤ b.1))).Pairwise (fun a b => a.1 ≤ b.1) := by
  have h := @List.sorted_mergeSort (Nat × Nat) (fun a b => decide (a.1 ≤ b.1))
    timeLE_trans (fun a b => timeLE_total a b) l
  exact h.imp (fun hab => by simpa using hab)

/-- Stability of the sort, in filter form: the subsequence of events at any
fixed absolute time is unchanged by the sort. -/
lemma mergeSort_stable_fst (l : List (Nat × Nat)) (t : Nat) :
    (l.mergeSort (fun a b => decide (a.1 ≤ b.1))).filter (fun e => decide (e.1 = t)) =
      l.filter (fun e => decide (e.1 = t)) := by
  set le := fun a b : Nat × Nat => decide (a.1 ≤ b.1) with hle
  set P := fun e : Nat × Nat => decide (e.1 = t) with hP
  have hc : (l.filter P).Pairwise (fun a b => le a b = true) := by
    apply List.pairwise_of_forall_mem_list
    intro a ha b hb
    have ha2 := (List.mem_filter.mp ha).2
    have hb2 := (List.mem_filter.mp hb).2
    rw [hP] at ha2 hb2
    simp only [decide_eq_true_eq] at ha2 hb2
    rw [hle]
    simp [ha2, hb2]
  have hsub : List.Sublist (l.filter P) (l.mergeSort le) :=
    List.sublist_mergeSort timeLE_trans (fun a b => timeLE_total a b) hc
      (List.filter_sublist l)
  have hself : (l.filter P).filter P = l.filter P := by
    rw [List.filter_eq_self]
    intro a ha
    exact (List.mem_filter.mp ha).2
  have hsub2 : List.Sublist (l.filter P) ((l.mergeSort le).filter P) := by
    have hs := hsub.filter P
    rwa [hself] at hs
  have hperm : List.Perm ((l.mergeSort le).filter P) (l.filter P) :=
    (List.mergeSort_perm l le).filter P
  exact (hsub2.eq_of_length (by rw [hperm.length_eq])).symm

/-! ### Frame helper for the scorer -/

lemma st_foldl (probs : Probs) :
    ∀ (l : List (Nat × Nat)) (acc : List ℝ),
      (l.foldl stStep (acc, probs)) =
      (acc ++ l.map (fun pr =>
        -Real.logb 2 ((transition_p probs pr.1 pr.2 : ℚ) : ℝ)), probs) := by
  intro l
  induction l with
  | nil => intro acc; simp
  | cons pr tl ih =>
    intro acc
    rw [List.foldl_cons]
    have hstep : stStep (acc, probs) pr =
        (acc ++ [-Real.logb 2 ((transition_p probs pr.1 pr.2 : ℚ) : ℝ)], probs) := rfl
    rw [hstep, ih]
    simp

/-! ### Orchestrator helpers -/

lemma foldl_addSeq_of_short {seqs : List (List Nat)}
    (h : ∀ s ∈ seqs, s.length < 2) : ∀ c : Counts, seqs.foldl addSeq c = c := by
  induction seqs with
  | nil => intro c; rfl
  | cons s tl ih =>
    intro c
    rw [List.foldl_cons, addSeq, if_pos (h s (by simp))]
    exact ih (fun s2 hs2 => h s2 (List.mem_cons_of_mem _ hs2)) c

lemma build_model_nil_of_short {seqs : List (List Nat)}
    (h : ∀ s ∈ seqs, s.length < 2) : (build_first_order_markov seqs).1 = [] := by
  show normalize_counts (build_counts seqs) = []
  rw [build_counts, foldl_addSeq_of_short h]
  rfl

/-- The key-presence characterization of the built count table. -/
lemma dget_build_none_iff (seqs : List (List Nat)) (a : Nat) :
    dget (build_counts seqs) a = none ↔ srcTotal seqs a = 0 := by
  rw [← rowTotal_build]
  constructor
  · intro h
    rw [rowTotal, h]
    rfl
  · intro h
    cases hd : dget (build_counts seqs) a with
    | none => rfl
    | some row =>
      obtain ⟨hne, _, hval⟩ := (build_counts_wf seqs).2 (a, row) (dget_mem hd)
      have hpos : 0 < (row.map Prod.snd).sum := row_sum_pos hne hval
      rw [rowTotal, hd] at h
      have h2 : (row.map Prod.snd).sum = 0 := h
      omega

/-! ### Claim theorems -/

lemma transition_p_match (transition_probs : Probs) (a b : Nat) :
    transition_p transition_probs a b =
      (match dget transition_probs a with
       | some row =>
         (match dget row b with
          | some q => q
          | none => (1e-6 : ℚ))
       | none => (1e-6 : ℚ)) := by
  rw [transition_p]
  cases h : dget transition_probs a with
  | none => simp [h, dget]
  | some row =>
    cases h2 : dget row b with
    | none => simp [h, h2]
    | some q => simp [h, h2]

/-- C1: for every note sequence and model, the scorer emits, for each
adjacent pair `(prev, next)` of the sequence in order, `-log2(p)` where
`p = model[prev][next]` when both lookups succeed and `p = 1e-6` otherwise;
for an absent transition the emitted surprise is `-log2(1e-6)`, which is
within `1e-4` of `19.931568` bits. -/
theorem c1_scorer_pointwise (sequence : List Nat) (transition_probs : Probs) :
    compute_surprise_sequence sequence transition_probs =
      (sequence.dropLast.zip sequence.tail).map (fun pr =>
        -Real.logb 2
          (((match dget transition_probs pr.1 with
             | some row =>
               (match dget row pr.2 with
                | some q => q
                | none => (1e-6 : ℚ))
             | none => (1e-6 : ℚ)) : ℚ) : ℝ))
    ∧ compute_surprise_sequence [67, 69] [] = [-Real.logb 2 ((1e-6 : ℚ) : ℝ)]
    ∧ |(-Real.logb 2 ((1e-6 : ℚ) : ℝ)) - 19.931568| < (1e-4 : ℝ) := by
  refine ⟨?_, ?_, fallback_surprise_bounds⟩
  · rw [compute_surprise_sequence]
    apply List.map_congr_left
    intro pr _
    rw [transition_p_match]
  · rfl

/-- C5: for every note sequence and model, the surprise sequence has length
`max(len(sequence) - 1, 0)`; a sequence of length 0 or 1 yields `[]`, and
`surprise[i]` corresponds positionally to `(sequence[i], sequence[i+1])`. -/
theorem c5_surprise_length_positional (sequence : List Nat) (transition_probs : Probs) :
    (compute_surprise_sequence sequence transition_probs).length =
        max (sequence.length - 1) 0
    ∧ (sequence.length ≤ 1 → compute_surprise_sequence sequence transition_probs = [])
    ∧ ∀ (i : Nat) (h1 : i + 1 < sequence.length)
        (h2 : i < (compute_surprise_sequence sequence transition_probs).length),
        (compute_surprise_sequence sequence transition_probs)[i] =
          -Real.logb 2 ((transition_p transition_probs
            (sequence[i]) (sequence[i + 1]) : ℚ) : ℝ) := by
  refine ⟨?_, ?_, ?_⟩
  · rw [compute_surprise_length]
    omega
  · intro h
    have hlen := compute_surprise_length sequence transition_probs
    have : (compute_surprise_sequence sequence transition_probs).length = 0 := by omega
    exact List.length_eq_zero.mp this
  · intro i h1 h2
    exact compute_surprise_getElem sequence transition_probs i h1 h2

/-- Witness for C5 at `sequence = [60, 62]`, `model = []`. -/
theorem c5_witness :
    (compute_surprise_sequence [60, 62] ([] : Probs)).length =
        max (([60, 62] : List Nat).length - 1) 0
    ∧ (compute_surprise_sequence [60, 62] ([] : Probs)).get
        ⟨0, by rw [compute_surprise_length]; decide⟩ =
      -Real.logb 2 ((transition_p ([] : Probs) 60 62 : ℚ) : ℝ) := by
  refine ⟨(c5_surprise_length_positional [60, 62] []).1, ?_⟩
  have h3 := (c5_surprise_length_positional [60, 62] []).2.2 0 (by decide)
    (by rw [compute_surprise_length]; decide)
  simpa using h3

/-- C2: in every built model, each present source's probabilities are
`count / total` over exactly the recorded destinations, each probability is
in `(0, 1]`, each row sums to 1 within `1e-9`; zero-total sources are
omitted entirely; from counts `{60: {62: 3, 64: 1}}` the model assigns
`0.75` and `0.25`. -/
theorem c2_model_probabilities (seqs : List (List Nat)) (x : Nat)
    (prow : List (Nat × ℚ))
    (h : dget (build_first_order_markov seqs).1 x = some prow) :
    (∃ crow, dget (build_first_order_markov seqs).2 x = some crow ∧
        prow = crow.map (fun yc =>
          (yc.1, (yc.2 : ℚ) / (((crow.map Prod.snd).sum : Nat) : ℚ)))) ∧
    (∀ yq ∈ prow, 0 < yq.2 ∧ yq.2 ≤ 1) ∧
    |(prow.map Prod.snd).sum - 1| ≤ (1e-9 : ℚ) ∧
    normalize_counts [(60, [(62, 3), (64, 1)])] =
      [(60, [(62, (0.75 : ℚ)), (64, (0.25 : ℚ))])] ∧
    (∀ (counts : Counts), (counts.map Prod.fst).Nodup →
      ∀ x2 crow2, dget counts x2 = some crow2 → (crow2.map Prod.snd).sum = 0 →
        dget (normalize_counts counts) x2 = none) := by
  have hd := dget_probs_build seqs x
  rw [h] at hd
  cases hc : dget (build_counts seqs) x with
  | none =>
    rw [hc] at hd
    exact Option.noConfusion hd
  | some crow =>
    rw [hc, Option.map_some'] at hd
    have hp : prow = crow.map (fun yc =>
        (yc.1, (yc.2 : ℚ) / (((crow.map Prod.snd).sum : Nat) : ℚ))) :=
      Option.some_inj.mp hd
    obtain ⟨hne, hnd, hval⟩ := (build_counts_wf seqs).2 (x, crow) (dget_mem hc)
    have hTpos : 0 < (crow.map Prod.snd).sum := row_sum_pos hne hval
    have hTQ : (0 : ℚ) < (((crow.map Prod.snd).sum : Nat) : ℚ) := by
      exact_mod_cast hTpos
    refine ⟨⟨crow, hc, hp⟩, ?_, ?_, ?_, ?_⟩
    · intro yq hyq
      rw [hp] at hyq
      obtain ⟨yc, hyc, rfl⟩ := List.mem_map.mp hyq
      constructor
      · apply div_pos _ hTQ
        have h1 : 1 ≤ yc.2 := hval yc hyc
        exact_mod_cast h1
      · rw [div_le_one hTQ]
        have hle : yc.2 ≤ (crow.map Prod.snd).sum :=
          nat_mem_le_sum (List.mem_map_of_mem Prod.snd hyc)
        exact_mod_cast hle
    · rw [hp, List.map_map]
      have hcomp : (Prod.snd ∘ fun yc : Nat × Nat =>
          (yc.1, (yc.2 : ℚ) / (((crow.map Prod.snd).sum : Nat) : ℚ))) =
          ((fun v : Nat => (v : ℚ) / (((crow.map Prod.snd).sum : Nat) : ℚ)) ∘ Prod.snd) :=
        rfl
      rw [hcomp, ← List.map_map, sum_map_div, div_self (ne_of_gt hTQ)]
      norm_num
    · rw [normalize_counts_cons]
      norm_num [normalize_counts]
    · intro counts hndc x2 crow2 hg hz
      exact dget_normalize_zero hndc hg hz

/-- The probability row of source 60 in the model built from
`[[60, 62, 60, 64]]`, evaluated concretely: used by witnesses. -/
lemma witness_probs_row :
    dget (build_first_order_markov [[60, 62, 60, 64]]).1 60 =
      some [(62, (1/2 : ℚ)), (64, (1/2 : ℚ))] := by
  rw [dget_probs_build]
  rw [show dget (build_counts [[60, 62, 60, 64]]) 60 = some [(62, 1), (64, 1)] from
    by decide]
  norm_num

/-- Witness for C2 at the corpus `[[60, 62, 60, 64]]`. -/
theorem c2_witness :
    dget (build_first_order_markov [[60, 62, 60, 64]]).1 60 =
        some [(62, (1/2 : ℚ)), (64, (1/2 : ℚ))] ∧
    |(([(62, (1/2 : ℚ)), (64, (1/2 : ℚ))].map Prod.snd).sum - 1)| ≤ (1e-9 : ℚ) :=
  ⟨witness_probs_row,
    (c2_model_probabilities [[60, 62, 60, 64]] 60 [(62, (1/2 : ℚ)), (64, (1/2 : ℚ))]
      witness_probs_row).2.2.1⟩

/-- C3: the built count table is exactly the multiset of adjacent pairs
taken within each single sequence — `count[a][b]` is the number of
occurrences of `(a, b)` as consecutive elements of one sequence, present
only when positive (so no transition crosses sequence boundaries), and any
sequence of length 0 or 1 contributes nothing. -/
theorem c3_counts_multiset (seqs : List (List Nat)) (a b : Nat) :
    dget2 (build_first_order_markov seqs).2 a b =
      (if 0 < (seqs.map (fun s => ((s.dropLast.zip s.tail).count (a, b)))).sum
       then some ((seqs.map (fun s => ((s.dropLast.zip s.tail).count (a, b)))).sum)
       else none)
    ∧ ∀ (counts : Counts) (s : List Nat), s.length < 2 → addSeq counts s = counts := by
  constructor
  · exact dget2_build seqs a b
  · intro counts s hs
    rw [addSeq, if_pos hs]

/-- Witness for C3: a 1-note sequence contributes nothing, and a two-file
corpus has no cross-file transition between 62 and 70. -/
theorem c3_witness :
    ([5] : List Nat).length < 2 ∧ addSeq [] [5] = [] ∧
    dget2 (build_first_order_markov [[60, 62], [70, 71]]).2 62 70 = none :=
  ⟨by decide, (c3_counts_multiset [] 0 0).2 [] [5] (by decide),
    by rw [(c3_counts_multiset [[60, 62], [70, 71]] 62 70).1]; decide⟩

/-- C9: every present source of a built count table has a nonempty row of
counts at least 1, so its total is positive, the zero-total skip in the
normalizer is unreachable, and the model has exactly the count table's
source keys and per-source destination keys. -/
theorem c9_model_keys (seqs : List (List Nat)) :
    (∀ xr ∈ (build_first_order_markov seqs).2, xr.2 ≠ [] ∧ ∀ yc ∈ xr.2, 1 ≤ yc.2) ∧
    (∀ xr ∈ (build_first_order_markov seqs).2, (xr.2.map Prod.snd).sum ≠ 0) ∧
    ((build_first_order_markov seqs).1.map Prod.fst =
      (build_first_order_markov seqs).2.map Prod.fst) ∧
    (∀ (x : Nat) (prow : List (Nat × ℚ)) (crow : List (Nat × Nat)),
      dget (build_first_order_markov seqs).1 x = some prow →
      dget (build_first_order_markov seqs).2 x = some crow →
      prow.map Prod.fst = crow.map Prod.fst) := by
  have hwf := build_counts_wf seqs
  have hnz : ∀ xr ∈ build_counts seqs, (xr.2.map Prod.snd).sum ≠ 0 := by
    intro xr hxr
    obtain ⟨hne, _, hval⟩ := hwf.2 xr hxr
    exact Nat.pos_iff_ne_zero.mp (row_sum_pos hne hval)
  refine ⟨?_, ?_, ?_, ?_⟩
  · intro xr hxr
    obtain ⟨hne, _, hval⟩ := hwf.2 xr hxr
    exact ⟨hne, hval⟩
  · exact hnz
  · show (normalize_counts (build_counts seqs)).map Prod.fst = _
    rw [normalize_eq_map hnz, List.map_map]
    exact List.map_congr_left (fun xr _ => rfl)
  · intro x prow crow hp hcr
    have hd := dget_probs_build seqs x
    rw [hp] at hd
    have hcr2 : dget (build_counts seqs) x = some crow := hcr
    rw [hcr2, Option.map_some'] at hd
    have hpe := Option.some_inj.mp hd
    rw [hpe, List.map_map]
    exact List.map_congr_left (fun yc _ => rfl)

/-- Witness for C9 at the corpus `[[60, 62, 60, 64]]`. -/
theorem c9_witness :
    dget (build_first_order_markov [[60, 62, 60, 64]]).1 60 =
        some [(62, (1/2 : ℚ)), (64, (1/2 : ℚ))] ∧
    dget (build_first_order_markov [[60, 62, 60, 64]]).2 60 =
        some [(62, 1), (64, 1)] ∧
    ([(62, (1/2 : ℚ)), (64, (1/2 : ℚ))].map Prod.fst) =
      ([(62, 1), (64, 1)] : List (Nat × Nat)).map Prod.fst :=
  ⟨witness_probs_row, by decide,
    (c9_model_keys [[60, 62, 60, 64]]).2.2.2 60 _ _ witness_probs_row (by decide)⟩

/-- C7: building is order-independent and deterministic — permuting the
corpus yields a model and count table identical as dictionaries (same keys,
same looked-up counts and probabilities), and rebuilding from the same
corpus yields identical results. -/
theorem c7_order_independence (seqs1 seqs2 : List (List Nat))
    (hperm : List.Perm seqs1 seqs2) :
    (∀ a b, dget2 (build_first_order_markov seqs1).2 a b =
        dget2 (build_first_order_markov seqs2).2 a b) ∧
    (∀ a b, dget2 (build_first_order_markov seqs1).1 a b =
        dget2 (build_first_order_markov seqs2).1 a b) ∧
    (∀ a, dget (build_first_order_markov seqs1).2 a = none ↔
        dget (build_first_order_markov seqs2).2 a = none) ∧
    (∀ a, dget (build_first_order_markov seqs1).1 a = none ↔
        dget (build_first_order_markov seqs2).1 a = none) ∧
    build_first_order_markov seqs1 = build_first_order_markov seqs1 := by
  have hpair : ∀ a b, pairTotal seqs1 a b = pairTotal seqs2 a b := by
    intro a b
    exact List.Perm.sum_eq (hperm.map _)
  have hsrc : ∀ a, srcTotal seqs1 a = srcTotal seqs2 a := by
    intro a
    exact List.Perm.sum_eq (hperm.map _)
  have hcounts : ∀ a b, dget2 (build_counts seqs1) a b = dget2 (build_counts seqs2) a b := by
    intro a b
    rw [dget2_build, dget2_build, hpair]
  have hcnone : ∀ a, dget (build_counts seqs1) a = none ↔
      dget (build_counts seqs2) a = none := by
    intro a
    rw [dget_build_none_iff, dget_build_none_iff, hsrc]
  refine ⟨hcounts, ?_, hcnone, ?_, rfl⟩
  · intro a b
    rw [dget2_probs_build, dget2_probs_build, hcounts,
      rowTotal_build, rowTotal_build, hsrc]
  · intro a
    rw [dget_probs_build, dget_probs_build, Option.map_eq_none', Option.map_eq_none']
    exact hcnone a

/-- Witness for C7 on a two-file corpus and its swap. -/
theorem c7_witness :
    dget2 (build_first_order_markov [[60, 62], [64, 65]]).1 60 62 =
      dget2 (build_first_order_markov [[64, 65], [60, 62]]).1 60 62 :=
  (c7_order_independence [[60, 62], [64, 65]] [[64, 65], [60, 62]]
    (List.Perm.swap _ _ _)).2.1 60 62

/-! ### C6 helpers: probability 1 and zero surprise -/

lemma transition_p_pos_le_one (seqs : List (List Nat)) (a b : Nat) :
    0 < transition_p (build_first_order_markov seqs).1 a b ∧
      transition_p (build_first_order_markov seqs).1 a b ≤ 1 := by
  rw [transition_p_eq]
  cases h : dget2 (build_first_order_markov seqs).1 a b with
  | none => norm_num
  | some q => simpa using built_prob_mem seqs a b h

lemma built_prob_one_iff (seqs : List (List Nat)) (a b : Nat) :
    transition_p (build_first_order_markov seqs).1 a b = 1 ↔
      ∃ cv, dget (build_counts seqs) a = some [(b, cv)] := by
  rw [transition_p_eq]
  constructor
  · intro hp
    cases hq : dget2 (build_first_order_markov seqs).1 a b with
    | none =>
      rw [hq] at hp
      norm_num at hp
    | some q =>
      rw [hq] at hp
      have hq1 : q = 1 := hp
      subst hq1
      have hd := dget2_probs_build seqs a b
      rw [hq] at hd
      cases hc : dget2 (build_counts seqs) a b with
      | none =>
        rw [hc] at hd
        exact Option.noConfusion hd
      | some cv =>
        rw [hc, Option.map_some'] at hd
        have hqe : (1 : ℚ) =
            (cv : ℚ) / ((rowTotal (build_counts seqs) a : Nat) : ℚ) :=
          Option.some_inj.mp hd
        obtain ⟨row, hrow, hgetcv⟩ : ∃ row, dget (build_counts seqs) a = some row ∧
            dget row b = some cv := by
          rw [dget2] at hc
          cases hg : dget (build_counts seqs) a with
          | none => rw [hg] at hc; exact Option.noConfusion hc
          | some row =>
            rw [hg, Option.some_bind] at hc
            exact ⟨row, rfl, hc⟩
        obtain ⟨hne, _, hval⟩ := (build_counts_wf seqs).2 (a, row) (dget_mem hrow)
        have hT : rowTotal (build_counts seqs) a = (row.map Prod.snd).sum := by
          rw [rowTotal, hrow]
          rfl
        have hTpos : 0 < (row.map Prod.snd).sum := row_sum_pos hne hval
        have hcvT : cv = (row.map Prod.snd).sum := by
          have hTQ : (((row.map Prod.snd).sum : Nat) : ℚ) ≠ 0 := by
            exact_mod_cast Nat.pos_iff_ne_zero.mp hTpos
          rw [hT] at hqe
          have h1 : (cv : ℚ) / (((row.map Prod.snd).sum : Nat) : ℚ) = 1 := hqe.symm
          have h2 := (div_eq_iff hTQ).mp h1
          rw [one_mul] at h2
          exact_mod_cast h2
        have hrow1 : row = [(b, cv)] :=
          row_singleton_of_sum_eq hval hgetcv hcvT.symm
        exact ⟨cv, by rw [hrow, hrow1]⟩
  · rintro ⟨cv, hrow⟩
    have hcv : dget2 (build_counts seqs) a b = some cv := by
      rw [dget2, hrow, Option.some_bind, dget]
      simp
    have hT : rowTotal (build_counts seqs) a = cv := by
      rw [rowTotal, hrow]
      simp [dget]
    have hcvpos : 1 ≤ cv := by
      obtain ⟨_, _, hval⟩ := (build_counts_wf seqs).2 (a, [(b, cv)]) (dget_mem hrow)
      exact hval (b, cv) (by simp)
    have hd := dget2_probs_build seqs a b
    rw [hcv, Option.map_some', hT] at hd
    rw [hd]
    have hcvQ : ((cv : Nat) : ℚ) ≠ 0 := by
      exact_mod_cast Nat.pos_iff_ne_zero.mp (by omega)
    simp [div_self hcvQ]

lemma neg_logb_nonneg {p : ℚ} (hp0 : 0 < p) (hp1 : p ≤ 1) :
    0 ≤ -Real.logb 2 ((p : ℚ) : ℝ) := by
  rw [neg_nonneg]
  apply Real.logb_nonpos (by norm_num : (1 : ℝ) < 2)
  · have : (0 : ℚ) ≤ p := hp0.le
    exact_mod_cast this
  · exact_mod_cast hp1

lemma neg_logb_eq_zero_iff {p : ℚ} (hp : 0 < p) :
    -Real.logb 2 ((p : ℚ) : ℝ) = 0 ↔ p = 1 := by
  rw [neg_eq_zero, Real.logb_eq_zero]
  constructor
  · intro h
    rcases h with h | h | h | h | h | h
    · norm_num at h
    · norm_num at h
    · norm_num at h
    · have hp0 : p = 0 := by exact_mod_cast h
      rw [hp0] at hp
      exact absurd hp (lt_irrefl 0)
    · exact_mod_cast h
    · have hpn : p = -1 := by exact_mod_cast h
      rw [hpn] at hp
      norm_num at hp
  · intro h
    rw [h]
    norm_num

/-- C6: scored against a built model, every surprise is non-negative (and
finite, being a real number), and is exactly 0 iff the transition's count
row records the destination as the sole destination of its source (modeled
probability exactly 1); scoring `[60, 62, 60, 62]` against
`{60: {62: 1.0}, 62: {60: 1.0}}` yields `[0.0, 0.0, 0.0]`. -/
theorem c6_zero_surprise (seqs : List (List Nat)) (sequence : List Nat)
    (i : Nat) (h1 : i + 1 < sequence.length)
    (h2 : i < (compute_surprise_sequence sequence
      (build_first_order_markov seqs).1).length) :
    0 ≤ (compute_surprise_sequence sequence (build_first_order_markov seqs).1)[i]
    ∧ ((compute_surprise_sequence sequence (build_first_order_markov seqs).1)[i] = 0 ↔
        ∃ cv, dget (build_first_order_markov seqs).2 (sequence[i]) =
          some [(sequence[i + 1], cv)])
    ∧ compute_surprise_sequence [60, 62, 60, 62] [(60, [(62, 1)]), (62, [(60, 1)])] =
        [0, 0, 0] := by
  have hget := compute_surprise_getElem sequence (build_first_order_markov seqs).1 i h1 h2
  obtain ⟨hp0, hp1⟩ := transition_p_pos_le_one seqs (sequence[i])
    (sequence[i + 1])
  refine ⟨?_, ?_, ?_⟩
  · rw [hget]
    exact neg_logb_nonneg hp0 hp1
  · rw [hget, neg_logb_eq_zero_iff hp0, built_prob_one_iff]
    exact Iff.rfl
  · norm_num [compute_surprise_sequence, transition_p, dget, Real.logb_one]

/-- Witness for C6 at corpus `[[60, 62]]`, sequence `[60, 62]`, index 0. -/
theorem c6_witness :
    0 ≤ (compute_surprise_sequence [60, 62]
        (build_first_order_markov [[60, 62]]).1).get
        ⟨0, by rw [compute_surprise_length]; decide⟩ ∧
    compute_surprise_sequence [60, 62, 60, 62] [(60, [(62, 1)]), (62, [(60, 1)])] =
      [0, 0, 0] := by
  have h := c6_zero_surprise [[60, 62]] [60, 62] 0 (by decide)
    (by rw [compute_surprise_length]; decide)
  exact ⟨by simpa using h.1, h.2.2⟩

/-- C4: for every parsed file, the extracted sequence has one entry per
note-on event with positive velocity across all tracks; each recorded
event's absolute time is the running (prefix) sum of delta-times within its
own track; the merged event list is stably sorted by absolute time
(equal-time runs keep recording order) and the sequence is its projection
to note numbers. -/
theorem c4_extractor (tracks : List (List Msg)) :
    (extract_note_sequence tracks).length =
        (tracks.map (fun tr => tr.countP noteOnQ)).sum
    ∧ (∀ track, trackEvents track =
        (((track.scanl (fun t m => t + m.time) 0).tail.zip track).filter
          (fun p => noteOnQ p.2)).map (fun p => (p.1, p.2.note)))
    ∧ ((allEvents tracks).mergeSort (fun a b => decide (a.1 ≤ b.1))).Pairwise
        (fun a b => a.1 ≤ b.1)
    ∧ extract_note_sequence tracks =
        ((allEvents tracks).mergeSort (fun a b => decide (a.1 ≤ b.1))).map Prod.snd
    ∧ (∀ t, ((allEvents tracks).mergeSort (fun a b => decide (a.1 ≤ b.1))).filter
          (fun e => decide (e.1 = t)) =
        (allEvents tracks).filter (fun e => decide (e.1 = t))) := by
  refine ⟨?_, trackEvents_spec, mergeSort_sorted_fst _, rfl,
    fun t => mergeSort_stable_fst _ t⟩
  rw [extract_note_sequence, List.length_map, List.length_mergeSort]
  exact allEvents_length tracks

/-- C10: the scorer mutates neither argument: threading the model (and the
sequence) through every `dict.get` of the loop returns them unchanged,
with the same surprises as the direct reading. -/
theorem c10_scorer_frame (sequence : List Nat) (transition_probs : Probs) :
    (compute_surprise_sequence_st sequence transition_probs).2.1 = transition_probs
    ∧ (compute_surprise_sequence_st sequence transition_probs).2.2 = sequence
    ∧ (compute_surprise_sequence_st sequence transition_probs).1 =
        compute_surprise_sequence sequence transition_probs := by
  have hf := st_foldl transition_probs (sequence.dropLast.zip sequence.tail) []
  refine ⟨?_, rfl, ?_⟩
  · show ((sequence.dropLast.zip sequence.tail).foldl stStep
      ([], transition_probs)).2 = transition_probs
    rw [hf]
  · show ((sequence.dropLast.zip sequence.tail).foldl stStep
      ([], transition_probs)).1 = compute_surprise_sequence sequence transition_probs
    rw [hf]
    simp [compute_surprise_sequence]

/-- C8: a style whose builder yields no model (for instance because every
file of the style has fewer than 2 notes) has every one of its files
skipped with a non-fatal outcome, while any file whose style has a
non-empty model and at least 2 notes is scored normally against it. -/
theorem c8_style_isolation (files : List MFile) (f : MFile) :
    (style_model files f.style = [] → score_file files f = ScoreOutcome.skipNoModel)
    ∧ ((∀ g ∈ files, g.style = f.style →
          (extract_note_sequence g.tracks).length < 2) →
        style_model files f.style = [] ∧
          score_file files f = ScoreOutcome.skipNoModel)
    ∧ (style_model files f.style ≠ [] →
        2 ≤ (extract_note_sequence f.tracks).length →
        score_file files f = ScoreOutcome.scored
          (compute_surprise_sequence (extract_note_sequence f.tracks)
            (style_model files f.style))) := by
  have hskip : style_model files f.style = [] →
      score_file files f = ScoreOutcome.skipNoModel := by
    intro h
    rw [score_file]
    simp [h]
  refine ⟨hskip, ?_, ?_⟩
  · intro h
    have hempty : style_model files f.style = [] := by
      rw [style_model]
      apply build_model_nil_of_short
      intro s hs
      obtain ⟨g, hg, rfl⟩ := List.mem_map.mp hs
      have hgf := List.mem_filter.mp hg
      exact h g hgf.1 (by simpa using hgf.2)
    exact ⟨hempty, hskip hempty⟩
  · intro hne hlen
    rw [score_file]
    simp only [if_neg hne]
    rw [if_neg (by omega)]

/-! Concrete batch for the C8 witness: style "a" holds one 1-note file,
style "b" holds one 2-note file. -/

/-- A 1-note file of style "a". -/
def fileA : MFile := ⟨"a", [[⟨0, false, "note_on", 60, 64⟩]]⟩

/-- A 2-note file of style "b". -/
def fileB : MFile :=
  ⟨"b", [[⟨0, false, "note_on", 60, 64⟩, ⟨1, false, "note_on", 62, 64⟩]]⟩

/-- The two-style batch for the C8 witness. -/
def filesAB : List MFile := [fileA, fileB]

lemma extract_fileA : extract_note_sequence fileA.tracks = [60] := by
  rw [show fileA.tracks = [[⟨0, false, "note_on", 60, 64⟩]] from rfl,
    extract_note_sequence, List.mergeSort_of_sorted (by decide)]
  decide

lemma extract_fileB : extract_note_sequence fileB.tracks = [60, 62] := by
  rw [show fileB.tracks =
      [[⟨0, false, "note_on", 60, 64⟩, ⟨1, false, "note_on", 62, 64⟩]] from rfl,
    extract_note_sequence, List.mergeSort_of_sorted (by decide)]
  decide

lemma style_model_b : style_model filesAB "b" = [(60, [(62, (1 : ℚ))])] := by
  rw [style_model]
  rw [show (style_to_files filesAB "b").map (fun f => extract_note_sequence f.tracks) =
      [extract_note_sequence fileB.tracks] from by
    rw [show style_to_files filesAB "b" = [fileB] from by decide]
    rfl]
  rw [extract_fileB]
  show normalize_counts (build_counts [[60, 62]]) = _
  rw [show build_counts [[60, 62]] = [(60, [(62, 1)])] from by decide,
    normalize_counts_cons]
  norm_num [normalize_counts]

/-- Witness for C8 on the two-style batch: the "a" file is skipped for lack
of a model, the "b" file is scored. -/
theorem c8_witness :
    score_file filesAB fileA = ScoreOutcome.skipNoModel ∧
    score_file filesAB fileB = ScoreOutcome.scored
      (compute_surprise_sequence (extract_note_sequence fileB.tracks)
        (style_model filesAB fileB.style)) := by
  constructor
  · refine ((c8_style_isolation filesAB fileA).2.1 ?_).2
    intro g hg hstyle
    rcases List.mem_cons.mp hg with h1 | h2
    · rw [h1, extract_fileA]
      decide
    · rcases List.mem_cons.mp h2 with h3 | h4
      · rw [h3] at hstyle
        exact absurd hstyle (by decide)
      · simp at h4
  · refine (c8_style_isolation filesAB fileB).2.2 ?_ ?_
    · rw [show fileB.style = "b" from rfl, style_model_b]
      simp
    · rw [extract_fileB]
      decide

end MelodySurprise
